import Mathlib

/-!
Shallow embedding of `ttlmap.go` (package `ttlmap`, github.com/mailgun/ttlmap).

The container couples a key-value map (`elements : map[string]*mapElement`)
with a min-heap of expiry times (`expiryTimes : *minheap.MinHeap`).  Every
map element holds a pointer to its heap element, and every heap element's
`Value` points back to the map element, so the two structures share one
record per key.  We model pointer identity by the key: under the container's
bijection invariant each key names exactly one map element and one heap
element, which is how the Go code uses the pointers.

The minheap package is an external dependency (spec section 4.1 gives its
contract: push / peek-min / pop-min / update-by-handle / remove-by-handle on
a min-priority queue, with no tie-breaking promise among equal priorities).
We realise that contract over a plain list: `peekEl` returns the first
element attaining the minimum priority, removal and update act on the unique
element with the given key.

The clock (`timetools.TimeProvider`) is injected; every operation takes the
current epoch-seconds reading `now : Int` as an explicit argument.

The optional `onExpire` callback is modelled by an `expireLog` field of the
state: each invocation the Go code would make (`m.onExpire(key, value)`)
appends the pair `(key, value)` to the log.  Since the Go code invokes the
callback in exactly one place (`expireElement`), only that function touches
the log.
-/

/-- Go `interface{}` values stored in the map, as far as the code inspects
them: `Increment`/`GetInt` test for `int` with a type assertion; any other
dynamic type behaves uniformly.  `VStr` covers strings, `VOther` any further
non-integer type. -/
inductive Value where
  | VInt (n : Int)
  | VStr (s : String)
  | VOther (tag : Nat)
deriving DecidableEq, Repr

/-- Go `minheap.Element`: `Priority` is the expiry epoch-seconds; the `Value`
pointer back to the owning `mapElement` is modelled by that element's key. -/
structure HeapElement where
  priority : Int
  key : String
deriving DecidableEq, Repr

/-- Go `mapElement`: key and stored value.  Its `heapEl` pointer is the
heap element carrying the same key. -/
structure MapElement where
  key : String
  value : Value
deriving DecidableEq, Repr

/-- Go `TtlMap` state.  `expireLog` records the `onExpire` callback
invocations (see module comment). -/
structure TtlMap where
  capacity : Int
  elements : List MapElement
  expiryTimes : List HeapElement
  expireLog : List (String × Value)
deriving DecidableEq, Repr

/-- Error taxonomy of the Go code (`fmt.Errorf` messages distinguish them):
`invalidCapacity` = "Capacity should be > 0", `invalidTTL` = "ttlSeconds
should be >= 0, got %d", `typeMismatch` = "Expected existing value to be
integer, got %T". -/
inductive TtlError where
  | invalidCapacity
  | invalidTTL
  | typeMismatch
deriving DecidableEq, Repr

/-- minheap `PeekEl`: the element with minimum priority (first one among
equal priorities; the spec promises no tie order). -/
def peekEl : List HeapElement → Option HeapElement
  | [] => none
  | h :: t =>
    match peekEl t with
    | none => some h
    | some h' => if h.priority ≤ h'.priority then some h else some h'

/-- minheap `RemoveEl` by handle: the handle is identified by its key. -/
def removeEl (k : String) (h : List HeapElement) : List HeapElement :=
  h.eraseP (fun e => e.key == k)

/-- minheap `UpdateEl` by handle: set the handle's priority in place. -/
def updateEl (k : String) (p : Int) (h : List HeapElement) : List HeapElement :=
  h.map fun e => if e.key == k then { e with priority := p } else e

/-- Go map lookup `m.elements[key]`. -/
def findElement (l : List MapElement) (k : String) : Option MapElement :=
  l.find? (fun e => e.key == k)

/-- Go `delete(m.elements, key)`. -/
def eraseElement (k : String) (l : List MapElement) : List MapElement :=
  l.eraseP (fun e => e.key == k)

/-- Go `mapEl.value = v` (in-place value update of the element named `k`). -/
def setValue (k : String) (v : Value) (l : List MapElement) : List MapElement :=
  l.map fun e => if e.key == k then { e with value := v } else e

namespace TtlMap

/-- Go `NewMap`: rejects non-positive capacity, otherwise starts empty. -/
def NewMap (capacity : Int) : Except TtlError TtlMap :=
  if capacity ≤ 0 then .error .invalidCapacity
  else .ok { capacity := capacity, elements := [], expiryTimes := [], expireLog := [] }

/-- Go `toEpochSeconds`: fails on `ttlSeconds <= 0`, otherwise `now + ttl`. -/
def toEpochSeconds (now ttlSeconds : Int) : Except TtlError Int :=
  if ttlSeconds ≤ 0 then .error .invalidTTL
  else .ok (now + ttlSeconds)

/-- Go `shouldExpire`: `mapEl.heapEl.Priority <= m.now()`.  The pointer
dereference is modelled by looking the element's key up in the heap (the
default `0` is never reached while the bijection invariant holds, which is
the only situation the Go pointer graph represents). -/
def heapPriority (m : TtlMap) (k : String) : Int :=
  match m.expiryTimes.find? (fun e => e.key == k) with
  | some e => e.priority
  | none => 0

def shouldExpire (m : TtlMap) (now : Int) (el : MapElement) : Bool :=
  decide (heapPriority m el.key ≤ now)

/-- Go `removeExpired`: up to `iterations` times, stop if the map is empty,
peek the heap minimum, stop if it is not yet expired, otherwise pop it and
delete its map entry; returns the new state with the removal count.  No
`onExpire` invocation occurs here. -/
def removeExpired (now : Int) : Nat → TtlMap → TtlMap × Nat
  | 0, m => (m, 0)
  | n + 1, m =>
    if m.elements.length = 0 then (m, 0)
    else
      match peekEl m.expiryTimes with
      | none => (m, 0)
      | some h =>
        if now < h.priority then (m, 0)
        else
          let m' := { m with expiryTimes := removeEl h.key m.expiryTimes,
                             elements := eraseElement h.key m.elements }
          let r := removeExpired now n m'
          (r.1, r.2 + 1)

/-- Go `removeLastUsed`: pop `iterations` heap minima (expired or not) and
delete their map entries, stopping early only when the map is empty.  No
`onExpire` invocation occurs here. -/
def removeLastUsed : Nat → TtlMap → TtlMap
  | 0, m => m
  | n + 1, m =>
    if m.elements.length = 0 then m
    else
      match peekEl m.expiryTimes with
      | none => m
      | some h =>
        removeLastUsed n { m with expiryTimes := removeEl h.key m.expiryTimes,
                                  elements := eraseElement h.key m.elements }

/-- Go `freeSpace`: phase 1 removes expired minima via `removeExpired`; if
fewer than `count` were removed, phase 2 removes further minima regardless
of expiry via `removeLastUsed`. -/
def freeSpace (now : Int) (count : Nat) (m : TtlMap) : TtlMap :=
  let r := removeExpired now count m
  if r.2 ≥ count then r.1
  else removeLastUsed (count - r.2) r.1

/-- Go `Set`: validate the TTL; for a new key, evict one slot first when at
or above capacity, then insert the entry/handle pair; for an existing key,
update the value and refresh the handle priority in place. -/
def Set (m : TtlMap) (now : Int) (key : String) (value : Value) (ttlSeconds : Int) :
    Except TtlError Unit × TtlMap :=
  match toEpochSeconds now ttlSeconds with
  | .error e => (.error e, m)
  | .ok expiryTime =>
    match findElement m.elements key with
    | none =>
      let m₁ := if (m.elements.length : Int) ≥ m.capacity then freeSpace now 1 m else m
      (.ok (), { m₁ with elements := m₁.elements ++ [⟨key, value⟩],
                         expiryTimes := m₁.expiryTimes ++ [⟨expiryTime, key⟩] })
    | some _ =>
      (.ok (), { m with elements := setValue key value m.elements,
                        expiryTimes := updateEl key expiryTime m.expiryTimes })

/-- Go `Len`: the current entry count; reads no clock. -/
def Len (m : TtlMap) : Nat :=
  m.elements.length

/-- Go `expireElement`: re-check membership, invoke the callback (logged),
then delete the map entry and remove the heap handle.  Returns the new state
and whether a removal happened. -/
def expireElement (m : TtlMap) (el : MapElement) : TtlMap × Bool :=
  match findElement m.elements el.key with
  | none => (m, false)
  | some _ =>
    ({ m with expireLog := m.expireLog ++ [(el.key, el.value)],
              elements := eraseElement el.key m.elements,
              expiryTimes := removeEl el.key m.expiryTimes }, true)

/-- Result of Go `Get`: the returned pair plus the (possibly mutated)
container. -/
structure GetRes where
  value : Option Value
  found : Bool
  state : TtlMap
deriving Repr

/-- Go `Get`: absent keys report not-found; an expired entry is removed via
`expireElement` and reported not-found; otherwise the value is returned. -/
def Get (m : TtlMap) (now : Int) (key : String) : GetRes :=
  match findElement m.elements key with
  | none => ⟨none, false, m⟩
  | some el =>
    if shouldExpire m now el then ⟨none, false, (expireElement m el).1⟩
    else ⟨some el.value, true, m⟩

/-- Go private `increment`: type-assert the stored value to `int`; on
mismatch fail without mutating; otherwise add, store, and refresh the
handle priority. -/
def increment (m : TtlMap) (el : MapElement) (value : Int) (expiryTime : Int) :
    Except TtlError Int × TtlMap :=
  match el.value with
  | .VInt cur =>
    (.ok (cur + value),
     { m with elements := setValue el.key (.VInt (cur + value)) m.elements,
              expiryTimes := updateEl el.key expiryTime m.expiryTimes })
  | _ => (.error .typeMismatch, m)

/-- Go `Increment`: validate the TTL; an absent or expired key falls back to
`Set` (whose error is discarded, as in the Go code) returning `value`;
otherwise delegate to the private `increment`. -/
def Increment (m : TtlMap) (now : Int) (key : String) (value : Int) (ttlSeconds : Int) :
    Except TtlError Int × TtlMap :=
  match toEpochSeconds now ttlSeconds with
  | .error e => (.error e, m)
  | .ok expiryTime =>
    match findElement m.elements key with
    | none => (.ok value, (Set m now key (.VInt value) ttlSeconds).2)
    | some el =>
      if shouldExpire m now el then (.ok value, (Set m now key (.VInt value) ttlSeconds).2)
      else increment m el value expiryTime

/-- Go `GetInt`: wrap `Get`; absent gives `(0, false)` without error, a
non-integer value gives a type-mismatch error. -/
def GetInt (m : TtlMap) (now : Int) (key : String) :
    Except TtlError (Int × Bool) × TtlMap :=
  let r := Get m now key
  if r.found then
    match r.value with
    | some (.VInt n) => (.ok (n, true), r.state)
    | _ => (.error .typeMismatch, r.state)
  else (.ok (0, false), r.state)

/-- Whether a stored value is integer-typed (the Go type assertion
`value.(int)` succeeds). -/
def isIntValue : Value → Bool
  | .VInt _ => true
  | _ => false

/-- Run a list of `Set` calls in order; each call supplies its clock reading,
key, value and TTL, and its state is kept whether or not the call succeeds
(a failed call leaves the state unchanged). -/
def runSets : TtlMap → List (Int × String × Value × Int) → TtlMap
  | m, [] => m
  | m, c :: rest => runSets (Set m c.1 c.2.1 c.2.2.1 c.2.2.2).2 rest

/-- The container's joint well-formedness: map keys are duplicate-free and
are, as a multiset, exactly the heap keys (spec invariant I2, the bijection;
pointer sharing makes the priority/expiry agreement I3 representational). -/
def Inv (m : TtlMap) : Prop :=
  (m.elements.map MapElement.key).Nodup ∧
  (m.elements.map MapElement.key).Perm (m.expiryTimes.map HeapElement.key)

instance (m : TtlMap) : Decidable m.Inv := by
  unfold Inv; infer_instance

end TtlMap

/-! ### Generic list helpers -/

/-- Erasing the first element with a given key commutes with projecting the
keys. -/
theorem map_eraseP_key {α : Type} (f : α → String) (k : String) (l : List α) :
    (l.eraseP (fun e => f e == k)).map f = (l.map f).erase k := by
  induction l with
  | nil => rfl
  | cons a t ih =>
    cases hb : f a == k <;>
      simp [List.eraseP_cons, List.erase_cons, hb, ih]

/-- A `find?` by key fails exactly when the key is not among the projected
keys. -/
theorem find?_key_eq_none {α : Type} (f : α → String) (k : String) (l : List α) :
    l.find? (fun e => f e == k) = none ↔ k ∉ l.map f := by
  simp only [List.find?_eq_none, List.mem_map, beq_iff_eq]
  constructor
  · rintro h ⟨x, hx, rfl⟩
    exact h x hx rfl
  · intro h x hx hk
    exact h ⟨x, hx, hk⟩

/-- `find?` skips a prefix in which nothing matches. -/
theorem find?_append_of_none {α : Type} {p : α → Bool} {l₁ l₂ : List α}
    (h : l₁.find? p = none) : (l₁ ++ l₂).find? p = l₂.find? p := by
  rw [List.find?_append, h, Option.none_or]

namespace TtlMap

/-! ### Heap-peek properties -/

theorem peekEl_eq_none {h : List HeapElement} : peekEl h = none ↔ h = [] := by
  cases h with
  | nil => simp [peekEl]
  | cons a t =>
    simp only [peekEl]
    cases peekEl t with
    | none => simp
    | some h' =>
      by_cases hle : a.priority ≤ h'.priority <;> simp [hle]

theorem peekEl_mem {h : List HeapElement} {e : HeapElement}
    (he : peekEl h = some e) : e ∈ h := by
  induction h generalizing e with
  | nil => simp [peekEl] at he
  | cons a t ih =>
    simp only [peekEl] at he
    cases hp : peekEl t with
    | none =>
      rw [hp] at he
      simp only [Option.some.injEq] at he
      simp [← he]
    | some h' =>
      rw [hp] at he
      by_cases hle : a.priority ≤ h'.priority
      · simp only [if_pos hle, Option.some.injEq] at he
        simp [← he]
      · simp only [if_neg hle, Option.some.injEq] at he
        subst he
        exact List.mem_cons_of_mem a (ih hp)

theorem peekEl_min {h : List HeapElement} {e : HeapElement}
    (he : peekEl h = some e) : ∀ x ∈ h, e.priority ≤ x.priority := by
  induction h generalizing e with
  | nil => simp [peekEl] at he
  | cons a t ih =>
    simp only [peekEl] at he
    cases hp : peekEl t with
    | none =>
      rw [hp] at he
      simp only [Option.some.injEq] at he
      have ht : t = [] := peekEl_eq_none.mp hp
      subst ht
      subst he
      simp
    | some h' =>
      rw [hp] at he
      by_cases hle : a.priority ≤ h'.priority
      · simp only [if_pos hle, Option.some.injEq] at he
        subst he
        intro x hx
        rcases List.mem_cons.mp hx with h1 | hxt
        · subst h1; exact le_refl _
        · exact hle.trans (ih hp x hxt)
      · simp only [if_neg hle, Option.some.injEq] at he
        subst he
        intro x hx
        rcases List.mem_cons.mp hx with h1 | hxt
        · subst h1; exact le_of_lt (lt_of_not_le hle)
        · exact ih hp x hxt

/-! ### Key projections of the four mutators -/

theorem map_key_eraseElement (k : String) (l : List MapElement) :
    (eraseElement k l).map MapElement.key = (l.map MapElement.key).erase k :=
  map_eraseP_key MapElement.key k l

theorem map_key_removeEl (k : String) (h : List HeapElement) :
    (removeEl k h).map HeapElement.key = (h.map HeapElement.key).erase k :=
  map_eraseP_key HeapElement.key k h

theorem map_key_setValue (k : String) (v : Value) (l : List MapElement) :
    (setValue k v l).map MapElement.key = l.map MapElement.key := by
  simp only [setValue, List.map_map]
  apply List.map_congr_left
  intro a _
  simp only [Function.comp_apply]
  split <;> rfl

theorem map_key_updateEl (k : String) (p : Int) (h : List HeapElement) :
    (updateEl k p h).map HeapElement.key = h.map HeapElement.key := by
  simp only [updateEl, List.map_map]
  apply List.map_congr_left
  intro a _
  simp only [Function.comp_apply]
  split <;> rfl

/-! ### `find?` through the mutators -/

theorem findElement_eq_none {l : List MapElement} {k : String} :
    findElement l k = none ↔ k ∉ l.map MapElement.key :=
  find?_key_eq_none MapElement.key k l

theorem findElement_key {l : List MapElement} {k : String} {el : MapElement}
    (h : findElement l k = some el) : el.key = k := by
  have := List.find?_some h
  simpa using this

theorem findElement_mem {l : List MapElement} {k : String} {el : MapElement}
    (h : findElement l k = some el) : el ∈ l :=
  List.mem_of_find?_eq_some h

theorem findElement_setValue_self (k : String) (v : Value) (l : List MapElement) :
    findElement (setValue k v l) k
      = (findElement l k).map (fun e => { e with value := v }) := by
  unfold findElement setValue
  induction l with
  | nil => rfl
  | cons a t ih =>
    rw [List.map_cons]
    by_cases hb : (a.key == k) = true
    · rw [if_pos hb]
      rw [List.find?_cons_of_pos (p := fun e : MapElement => e.key == k) _ (by simpa using hb),
        List.find?_cons_of_pos (p := fun e : MapElement => e.key == k) _ hb]
      rfl
    · rw [if_neg hb]
      rw [List.find?_cons_of_neg (p := fun e : MapElement => e.key == k) _ (by simpa using hb),
        List.find?_cons_of_neg (p := fun e : MapElement => e.key == k) _ hb]
      exact ih

theorem findElement_setValue_other {k k' : String} (hne : k' ≠ k)
    (v : Value) (l : List MapElement) :
    findElement (setValue k v l) k' = findElement l k' := by
  unfold findElement setValue
  induction l with
  | nil => rfl
  | cons a t ih =>
    rw [List.map_cons]
    by_cases hb : (a.key == k) = true
    · have hk : a.key = k := by simpa using hb
      have hb' : ¬(a.key == k') = true := by
        simp only [hk, beq_iff_eq]
        exact fun h => hne h.symm
      rw [if_pos hb]
      rw [List.find?_cons_of_neg (p := fun e : MapElement => e.key == k') _ (by simpa using hb'),
        List.find?_cons_of_neg (p := fun e : MapElement => e.key == k') _ hb']
      exact ih
    · rw [if_neg hb]
      by_cases hb' : (a.key == k') = true
      · rw [List.find?_cons_of_pos (p := fun e : MapElement => e.key == k') _ hb',
          List.find?_cons_of_pos (p := fun e : MapElement => e.key == k') _ hb']
      · rw [List.find?_cons_of_neg (p := fun e : MapElement => e.key == k') _ hb',
          List.find?_cons_of_neg (p := fun e : MapElement => e.key == k') _ hb']
        exact ih

theorem find?_updateEl_self (k : String) (p : Int) (h : List HeapElement) :
    (updateEl k p h).find? (fun e => e.key == k)
      = (h.find? (fun e => e.key == k)).map (fun e => { e with priority := p }) := by
  unfold updateEl
  induction h with
  | nil => rfl
  | cons a t ih =>
    rw [List.map_cons]
    by_cases hb : (a.key == k) = true
    · rw [if_pos hb]
      rw [List.find?_cons_of_pos (p := fun e : HeapElement => e.key == k) _ (by simpa using hb),
        List.find?_cons_of_pos (p := fun e : HeapElement => e.key == k) _ hb]
      rfl
    · rw [if_neg hb]
      rw [List.find?_cons_of_neg (p := fun e : HeapElement => e.key == k) _ (by simpa using hb),
        List.find?_cons_of_neg (p := fun e : HeapElement => e.key == k) _ hb]
      exact ih

theorem find?_updateEl_other {k k' : String} (hne : k' ≠ k)
    (p : Int) (h : List HeapElement) :
    (updateEl k p h).find? (fun e => e.key == k')
      = h.find? (fun e => e.key == k') := by
  unfold updateEl
  induction h with
  | nil => rfl
  | cons a t ih =>
    rw [List.map_cons]
    by_cases hb : (a.key == k) = true
    · have hk : a.key = k := by simpa using hb
      have hb' : ¬(a.key == k') = true := by
        simp only [hk, beq_iff_eq]
        exact fun h => hne h.symm
      rw [if_pos hb]
      rw [List.find?_cons_of_neg (p := fun e : HeapElement => e.key == k') _ (by simpa using hb'),
        List.find?_cons_of_neg (p := fun e : HeapElement => e.key == k') _ hb']
      exact ih
    · rw [if_neg hb]
      by_cases hb' : (a.key == k') = true
      · rw [List.find?_cons_of_pos (p := fun e : HeapElement => e.key == k') _ hb',
          List.find?_cons_of_pos (p := fun e : HeapElement => e.key == k') _ hb']
      · rw [List.find?_cons_of_neg (p := fun e : HeapElement => e.key == k') _ hb',
          List.find?_cons_of_neg (p := fun e : HeapElement => e.key == k') _ hb']
        exact ih

/-! ### Basic invariant facts -/

theorem Inv.length_eq {m : TtlMap} (h : m.Inv) :
    m.elements.length = m.expiryTimes.length := by
  have := h.2.length_eq
  simpa using this

/-- Removing one key from the map and the matching handle from the heap
preserves the bijection invariant. -/
theorem Inv_erase {m : TtlMap} (hInv : m.Inv) (k : String) (L : List (String × Value)) :
    Inv { m with elements := eraseElement k m.elements,
                 expiryTimes := removeEl k m.expiryTimes,
                 expireLog := L } := by
  constructor
  · rw [map_key_eraseElement]
    exact hInv.1.erase k
  · rw [map_key_eraseElement, map_key_removeEl]
    exact hInv.2.erase k

theorem length_eraseElement_of_mem {k : String} {l : List MapElement}
    (hmem : k ∈ l.map MapElement.key) :
    (eraseElement k l).length + 1 = l.length := by
  have h1 : (eraseElement k l).length = l.length - 1 := by
    rw [← List.length_map (eraseElement k l) MapElement.key, map_key_eraseElement,
      List.length_erase_of_mem hmem, List.length_map]
  have h2 : 0 < l.length := by
    rcases List.mem_map.mp hmem with ⟨a, ha, _⟩
    exact List.length_pos_of_mem ha
  omega

/-- Under the invariant, a peeked heap handle names a present map entry. -/
theorem peek_key_mem_elements {m : TtlMap} {h : HeapElement} (hInv : m.Inv)
    (hp : peekEl m.expiryTimes = some h) :
    h.key ∈ m.elements.map MapElement.key := by
  have hmem : h.key ∈ m.expiryTimes.map HeapElement.key :=
    List.mem_map.mpr ⟨h, peekEl_mem hp, rfl⟩
  exact hInv.2.mem_iff.mpr hmem

/-! ### Shape of the eviction engine (capacity, callback log, sublists) -/

theorem removeExpired_shape (now : Int) (n : Nat) (m : TtlMap) :
    (removeExpired now n m).1.capacity = m.capacity ∧
    (removeExpired now n m).1.expireLog = m.expireLog ∧
    (removeExpired now n m).1.elements.Sublist m.elements ∧
    (removeExpired now n m).1.expiryTimes.Sublist m.expiryTimes := by
  induction n generalizing m with
  | zero => simp [removeExpired]
  | succ n ih =>
    rw [removeExpired]
    split
    · simp
    · split
      · simp
      · rename_i h hp
        split
        · simp
        · rename_i hpr
          obtain ⟨hc, hl, hse, hsh⟩ :=
            ih { m with expiryTimes := removeEl h.key m.expiryTimes,
                        elements := eraseElement h.key m.elements }
          exact ⟨hc, hl, hse.trans (List.eraseP_sublist _),
            hsh.trans (List.eraseP_sublist _)⟩

theorem removeLastUsed_shape (n : Nat) (m : TtlMap) :
    (removeLastUsed n m).capacity = m.capacity ∧
    (removeLastUsed n m).expireLog = m.expireLog ∧
    (removeLastUsed n m).elements.Sublist m.elements ∧
    (removeLastUsed n m).expiryTimes.Sublist m.expiryTimes := by
  induction n generalizing m with
  | zero => simp [removeLastUsed]
  | succ n ih =>
    rw [removeLastUsed]
    split
    · simp
    · split
      · simp
      · rename_i h hp
        obtain ⟨hc, hl, hse, hsh⟩ :=
          ih { m with expiryTimes := removeEl h.key m.expiryTimes,
                      elements := eraseElement h.key m.elements }
        exact ⟨hc, hl, hse.trans (List.eraseP_sublist _),
          hsh.trans (List.eraseP_sublist _)⟩

theorem freeSpace_shape (now : Int) (n : Nat) (m : TtlMap) :
    (freeSpace now n m).capacity = m.capacity ∧
    (freeSpace now n m).expireLog = m.expireLog ∧
    (freeSpace now n m).elements.Sublist m.elements ∧
    (freeSpace now n m).expiryTimes.Sublist m.expiryTimes := by
  rw [freeSpace]
  obtain ⟨hc, hl, hse, hsh⟩ := removeExpired_shape now n m
  by_cases hge : (removeExpired now n m).2 ≥ n
  · simpa [hge] using ⟨hc, hl, hse, hsh⟩
  · simp only [hge, if_false]
    obtain ⟨hc', hl', hse', hsh'⟩ :=
      removeLastUsed_shape (n - (removeExpired now n m).2) (removeExpired now n m).1
    exact ⟨hc'.trans hc, hl'.trans hl, hse'.trans hse, hsh'.trans hsh⟩

/-! ### Invariant and length through the eviction engine -/

theorem removeExpired_invLen (now : Int) (n : Nat) (m : TtlMap) (hInv : m.Inv) :
    (removeExpired now n m).1.Inv ∧
    (removeExpired now n m).1.elements.length + (removeExpired now n m).2
      = m.elements.length ∧
    (removeExpired now n m).2 ≤ n := by
  induction n generalizing m with
  | zero => exact ⟨hInv, by simp [removeExpired], by simp [removeExpired]⟩
  | succ n ih =>
    rw [removeExpired]
    split
    · exact ⟨hInv, by simp, by simp⟩
    · split
      · exact ⟨hInv, by simp, by simp⟩
      · rename_i h hp
        split
        · exact ⟨hInv, by simp, by simp⟩
        · rename_i hpr
          have hInv' := Inv_erase hInv h.key m.expireLog
          have hkey := peek_key_mem_elements hInv hp
          have hlen := length_eraseElement_of_mem hkey
          obtain ⟨h1, h2, h3⟩ := ih _ hInv'
          dsimp only at h2 ⊢
          exact ⟨h1, by omega, by omega⟩

theorem removeLastUsed_invLen (n : Nat) (m : TtlMap) (hInv : m.Inv) :
    (removeLastUsed n m).Inv ∧
    (removeLastUsed n m).elements.length = m.elements.length - n := by
  induction n generalizing m with
  | zero => exact ⟨hInv, by simp [removeLastUsed]⟩
  | succ n ih =>
    rw [removeLastUsed]
    split
    · rename_i h0
      exact ⟨hInv, by omega⟩
    · split
      · rename_i hp
        have hlen := hInv.length_eq
        have hnil := peekEl_eq_none.mp hp
        rw [hnil] at hlen
        simp only [List.length_nil] at hlen
        exact ⟨hInv, by omega⟩
      · rename_i h0 h hp
        have hInv' := Inv_erase hInv h.key m.expireLog
        have hkey := peek_key_mem_elements hInv hp
        have hlen := length_eraseElement_of_mem hkey
        obtain ⟨h1, h2⟩ := ih _ hInv'
        dsimp only at h2 ⊢
        exact ⟨h1, by omega⟩

theorem freeSpace_invLen (now : Int) (n : Nat) (m : TtlMap) (hInv : m.Inv) :
    (freeSpace now n m).Inv ∧
    (freeSpace now n m).elements.length = m.elements.length - n := by
  obtain ⟨h1, h2, h3⟩ := removeExpired_invLen now n m hInv
  rw [freeSpace]
  by_cases hge : (removeExpired now n m).2 ≥ n
  · rw [if_pos hge]
    exact ⟨h1, by omega⟩
  · rw [if_neg hge]
    obtain ⟨h4, h5⟩ := removeLastUsed_invLen _ _ h1
    exact ⟨h4, by omega⟩

/-! ### Branch equations for `Set` -/

theorem Set_nonpos {m : TtlMap} {now : Int} {k : String} {v : Value} {t : Int}
    (ht : t ≤ 0) : Set m now k v t = (.error .invalidTTL, m) := by
  simp [Set, toEpochSeconds, ht]

theorem Set_eq_of_pos {m : TtlMap} {now : Int} {k : String} {v : Value} {t : Int}
    (ht : 0 < t) :
    Set m now k v t =
      match findElement m.elements k with
      | none =>
        let m₁ := if (m.elements.length : Int) ≥ m.capacity then freeSpace now 1 m else m
        (.ok (), { m₁ with elements := m₁.elements ++ [⟨k, v⟩],
                           expiryTimes := m₁.expiryTimes ++ [⟨now + t, k⟩] })
      | some _ =>
        (.ok (), { m with elements := setValue k v m.elements,
                          expiryTimes := updateEl k (now + t) m.expiryTimes }) := by
  have hE : toEpochSeconds now t = .ok (now + t) := by
    rw [toEpochSeconds, if_neg (by omega)]
  rw [Set, hE]

theorem Set_new_lt {m : TtlMap} {now : Int} {k : String} {v : Value} {t : Int}
    (ht : 0 < t) (hf : findElement m.elements k = none)
    (hlt : ¬ (m.elements.length : Int) ≥ m.capacity) :
    Set m now k v t =
      (.ok (), { m with elements := m.elements ++ [⟨k, v⟩],
                        expiryTimes := m.expiryTimes ++ [⟨now + t, k⟩] }) := by
  rw [Set_eq_of_pos ht, hf]
  dsimp only
  rw [if_neg hlt]

theorem Set_new_ge {m : TtlMap} {now : Int} {k : String} {v : Value} {t : Int}
    (ht : 0 < t) (hf : findElement m.elements k = none)
    (hge : (m.elements.length : Int) ≥ m.capacity) :
    Set m now k v t =
      (.ok (), { freeSpace now 1 m with
                 elements := (freeSpace now 1 m).elements ++ [⟨k, v⟩],
                 expiryTimes := (freeSpace now 1 m).expiryTimes ++ [⟨now + t, k⟩] }) := by
  rw [Set_eq_of_pos ht, hf]
  dsimp only
  rw [if_pos hge]

theorem Set_overwrite {m : TtlMap} {now : Int} {k : String} {v : Value} {t : Int}
    {el : MapElement} (ht : 0 < t) (hf : findElement m.elements k = some el) :
    Set m now k v t =
      (.ok (), { m with elements := setValue k v m.elements,
                        expiryTimes := updateEl k (now + t) m.expiryTimes }) := by
  rw [Set_eq_of_pos ht, hf]

/-! ### `Set` preserves the invariant, the capacity field and the log -/

theorem not_mem_keys_of_sublist {l l' : List MapElement} {k : String}
    (hs : l'.Sublist l) (hk : k ∉ l.map MapElement.key) :
    k ∉ l'.map MapElement.key :=
  fun hmem => hk (List.Sublist.mem hmem (hs.map MapElement.key))

/-- Appending a fresh entry/handle pair preserves the invariant. -/
theorem Inv_push {m : TtlMap} (hInv : m.Inv) {k : String}
    (hk : k ∉ m.elements.map MapElement.key) (v : Value) (p : Int) :
    Inv { m with elements := m.elements ++ [⟨k, v⟩],
                 expiryTimes := m.expiryTimes ++ [⟨p, k⟩] } := by
  constructor
  · dsimp only
    simp only [List.map_append, List.map_cons, List.map_nil]
    rw [(List.perm_append_singleton _ _).nodup_iff]
    exact List.nodup_cons.mpr ⟨hk, hInv.1⟩
  · dsimp only
    simp only [List.map_append, List.map_cons, List.map_nil]
    exact hInv.2.append_right _

theorem Set_inv {m : TtlMap} (now : Int) (k : String) (v : Value) (t : Int)
    (hInv : m.Inv) : (Set m now k v t).2.Inv := by
  by_cases ht : t ≤ 0
  · rw [Set_nonpos ht]
    exact hInv
  · push_neg at ht
    cases hf : findElement m.elements k with
    | none =>
      have hk : k ∉ m.elements.map MapElement.key := findElement_eq_none.mp hf
      by_cases hge : (m.elements.length : Int) ≥ m.capacity
      · rw [Set_new_ge ht hf hge]
        exact Inv_push (freeSpace_invLen now 1 m hInv).1
          (not_mem_keys_of_sublist (freeSpace_shape now 1 m).2.2.1 hk) v (now + t)
      · rw [Set_new_lt ht hf hge]
        exact Inv_push hInv hk v (now + t)
    | some el =>
      rw [Set_overwrite ht hf]
      constructor
      · dsimp only
        rw [map_key_setValue]
        exact hInv.1
      · dsimp only
        rw [map_key_setValue, map_key_updateEl]
        exact hInv.2

theorem Set_frame (m : TtlMap) (now : Int) (k : String) (v : Value) (t : Int) :
    (Set m now k v t).2.capacity = m.capacity ∧
    (Set m now k v t).2.expireLog = m.expireLog := by
  by_cases ht : t ≤ 0
  · rw [Set_nonpos ht]
    exact ⟨rfl, rfl⟩
  · push_neg at ht
    cases hf : findElement m.elements k with
    | none =>
      by_cases hge : (m.elements.length : Int) ≥ m.capacity
      · rw [Set_new_ge ht hf hge]
        exact ⟨(freeSpace_shape now 1 m).1, (freeSpace_shape now 1 m).2.1⟩
      · rw [Set_new_lt ht hf hge]
        exact ⟨rfl, rfl⟩
    | some el =>
      rw [Set_overwrite ht hf]
      exact ⟨rfl, rfl⟩

theorem Set_len_le {m : TtlMap} {now : Int} {k : String} {v : Value} {t : Int}
    (hInv : m.Inv) (hcap : 0 < m.capacity)
    (hle : (m.elements.length : Int) ≤ m.capacity) :
    ((Set m now k v t).2.elements.length : Int) ≤ m.capacity := by
  by_cases ht : t ≤ 0
  · rw [Set_nonpos ht]
    exact hle
  · push_neg at ht
    cases hf : findElement m.elements k with
    | none =>
      by_cases hge : (m.elements.length : Int) ≥ m.capacity
      · rw [Set_new_ge ht hf hge]
        have h5 := (freeSpace_invLen now 1 m hInv).2
        dsimp only
        rw [List.length_append]
        simp only [List.length_cons, List.length_nil]
        omega
      · rw [Set_new_lt ht hf hge]
        dsimp only
        rw [List.length_append]
        simp only [List.length_cons, List.length_nil]
        omega
    | some el =>
      rw [Set_overwrite ht hf]
      dsimp only
      rw [setValue, List.length_map]
      exact hle

theorem runSets_bound (calls : List (Int × String × Value × Int)) :
    ∀ m : TtlMap, m.Inv → 0 < m.capacity →
      (m.elements.length : Int) ≤ m.capacity →
      (runSets m calls).Inv ∧ (runSets m calls).capacity = m.capacity ∧
      ((runSets m calls).elements.length : Int) ≤ m.capacity := by
  induction calls with
  | nil =>
    intro m h1 _ h3
    exact ⟨h1, rfl, h3⟩
  | cons c rest ih =>
    intro m h1 h2 h3
    rw [runSets]
    have hInv' := Set_inv c.1 c.2.1 c.2.2.1 c.2.2.2 h1
    have hcap' := (Set_frame m c.1 c.2.1 c.2.2.1 c.2.2.2).1
    have hlen' := @Set_len_le m c.1 c.2.1 c.2.2.1 c.2.2.2 h1 h2 h3
    obtain ⟨g1, g2, g3⟩ := ih _ hInv' (by rw [hcap']; exact h2) (by rw [hcap']; exact hlen')
    rw [hcap'] at g2 g3
    exact ⟨g1, g2, g3⟩

/-! ### Lookup after `Set` -/

theorem Set_find_self {m : TtlMap} {now : Int} {k : String} {v : Value} {t : Int}
    (hInv : m.Inv) (ht : 0 < t) :
    (Set m now k v t).1 = .ok () ∧
    findElement (Set m now k v t).2.elements k = some ⟨k, v⟩ ∧
    heapPriority (Set m now k v t).2 k = now + t := by
  cases hf : findElement m.elements k with
  | none =>
    have hk : k ∉ m.elements.map MapElement.key := findElement_eq_none.mp hf
    have hkh : k ∉ m.expiryTimes.map HeapElement.key :=
      fun hmem => hk (hInv.2.mem_iff.mpr hmem)
    have main : ∀ m₁ : TtlMap, m₁.elements.Sublist m.elements →
        m₁.expiryTimes.Sublist m.expiryTimes →
        findElement (m₁.elements ++ [⟨k, v⟩]) k = some ⟨k, v⟩ ∧
        List.find? (fun e : HeapElement => e.key == k)
            (m₁.expiryTimes ++ [(⟨now + t, k⟩ : HeapElement)])
          = some (⟨now + t, k⟩ : HeapElement) := by
      intro m₁ hse hsh
      have hnone : m₁.elements.find? (fun e => e.key == k) = none :=
        (find?_key_eq_none _ _ _).mpr (not_mem_keys_of_sublist hse hk)
      have hnoneh : m₁.expiryTimes.find? (fun e => e.key == k) = none := by
        apply (find?_key_eq_none HeapElement.key _ _).mpr
        intro hmem
        exact hkh (List.Sublist.mem hmem (hsh.map _))
      constructor
      · rw [findElement, find?_append_of_none hnone]
        simp
      · rw [find?_append_of_none hnoneh]
        simp
    by_cases hge : (m.elements.length : Int) ≥ m.capacity
    · rw [Set_new_ge ht hf hge]
      obtain ⟨hfind, hfh⟩ := main (freeSpace now 1 m)
        (freeSpace_shape now 1 m).2.2.1 (freeSpace_shape now 1 m).2.2.2
      refine ⟨rfl, hfind, ?_⟩
      rw [heapPriority]
      dsimp only
      rw [hfh]
    · rw [Set_new_lt ht hf hge]
      obtain ⟨hfind, hfh⟩ := main m (List.Sublist.refl _) (List.Sublist.refl _)
      refine ⟨rfl, hfind, ?_⟩
      rw [heapPriority]
      dsimp only
      rw [hfh]
  | some el =>
    have hkey := findElement_key hf
    rw [Set_overwrite ht hf]
    refine ⟨rfl, ?_, ?_⟩
    · dsimp only
      rw [findElement_setValue_self, hf]
      simp [hkey]
    · dsimp only
      rw [heapPriority]
      dsimp only
      rw [find?_updateEl_self]
      have hmem : k ∈ m.elements.map MapElement.key :=
        List.mem_map.mpr ⟨el, findElement_mem hf, hkey⟩
      have hmemh : k ∈ m.expiryTimes.map HeapElement.key := hInv.2.mem_iff.mp hmem
      have hex : ∃ e ∈ m.expiryTimes, (fun e : HeapElement => e.key == k) e = true := by
        rcases List.mem_map.mp hmemh with ⟨e, he, hek⟩
        exact ⟨e, he, by simp [hek]⟩
      have hsome := List.find?_isSome.mpr hex
      cases hfh : m.expiryTimes.find? (fun e => e.key == k) with
      | none =>
        rw [hfh] at hsome
        simp at hsome
      | some e =>
        rfl

/-! ### Branch equations for `Get` -/

theorem Get_absent {m : TtlMap} {now : Int} {k : String}
    (hf : findElement m.elements k = none) :
    Get m now k = ⟨none, false, m⟩ := by
  rw [Get, hf]

theorem Get_live {m : TtlMap} {now : Int} {k : String} {el : MapElement}
    (hf : findElement m.elements k = some el)
    (hexp : shouldExpire m now el = false) :
    Get m now k = ⟨some el.value, true, m⟩ := by
  rw [Get, hf]
  simp [hexp]

theorem Get_expired {m : TtlMap} {now : Int} {k : String} {el : MapElement}
    (hf : findElement m.elements k = some el)
    (hexp : shouldExpire m now el = true) :
    Get m now k = ⟨none, false,
      { m with expireLog := m.expireLog ++ [(el.key, el.value)],
               elements := eraseElement el.key m.elements,
               expiryTimes := removeEl el.key m.expiryTimes }⟩ := by
  have hre : findElement m.elements el.key = some el := by
    rw [findElement_key hf]
    exact hf
  rw [Get, hf]
  simp only [hexp, if_true]
  rw [expireElement, hre]

theorem Get_inv {m : TtlMap} (now : Int) (k : String) (hInv : m.Inv) :
    (Get m now k).state.Inv := by
  cases hf : findElement m.elements k with
  | none =>
    rw [Get_absent hf]
    exact hInv
  | some el =>
    cases hexp : shouldExpire m now el with
    | false =>
      rw [Get_live hf hexp]
      exact hInv
    | true =>
      rw [Get_expired hf hexp]
      exact Inv_erase hInv el.key _

theorem Get_log (m : TtlMap) (now : Int) (k : String) :
    (Get m now k).state.expireLog = m.expireLog ++
      (match findElement m.elements k with
       | some el => if shouldExpire m now el then [(k, el.value)] else []
       | none => []) := by
  cases hf : findElement m.elements k with
  | none =>
    rw [Get_absent hf]
    simp
  | some el =>
    cases hexp : shouldExpire m now el with
    | false =>
      rw [Get_live hf hexp]
      simp [hexp]
    | true =>
      rw [Get_expired hf hexp]
      simp [findElement_key hf, hexp]

/-! ### Branch equations for `Increment`, and `GetInt` facts -/

theorem Increment_nonpos {m : TtlMap} {now : Int} {k : String} {d t : Int}
    (ht : t ≤ 0) : Increment m now k d t = (.error .invalidTTL, m) := by
  simp [Increment, toEpochSeconds, ht]

theorem Increment_absent {m : TtlMap} {now : Int} {k : String} {d t : Int}
    (ht : 0 < t) (hf : findElement m.elements k = none) :
    Increment m now k d t = (.ok d, (Set m now k (.VInt d) t).2) := by
  have hE : toEpochSeconds now t = .ok (now + t) := by
    rw [toEpochSeconds, if_neg (by omega)]
  rw [Increment, hE, hf]

theorem Increment_expired {m : TtlMap} {now : Int} {k : String} {d t : Int}
    {el : MapElement} (ht : 0 < t)
    (hf : findElement m.elements k = some el)
    (hexp : shouldExpire m now el = true) :
    Increment m now k d t = (.ok d, (Set m now k (.VInt d) t).2) := by
  have hE : toEpochSeconds now t = .ok (now + t) := by
    rw [toEpochSeconds, if_neg (by omega)]
  rw [Increment, hE, hf]
  simp [hexp]

theorem Increment_live {m : TtlMap} {now : Int} {k : String} {d t : Int}
    {el : MapElement} {cur : Int} (ht : 0 < t)
    (hf : findElement m.elements k = some el)
    (hexp : shouldExpire m now el = false)
    (hval : el.value = .VInt cur) :
    Increment m now k d t = (.ok (cur + d),
      { m with elements := setValue el.key (.VInt (cur + d)) m.elements,
               expiryTimes := updateEl el.key (now + t) m.expiryTimes }) := by
  have hE : toEpochSeconds now t = .ok (now + t) := by
    rw [toEpochSeconds, if_neg (by omega)]
  rw [Increment, hE, hf]
  simp only [hexp, Bool.false_eq_true, if_false]
  rw [increment, hval]

theorem Increment_mismatch {m : TtlMap} {now : Int} {k : String} {d t : Int}
    {el : MapElement} (ht : 0 < t)
    (hf : findElement m.elements k = some el)
    (hexp : shouldExpire m now el = false)
    (hval : isIntValue el.value = false) :
    Increment m now k d t = (.error .typeMismatch, m) := by
  have hE : toEpochSeconds now t = .ok (now + t) := by
    rw [toEpochSeconds, if_neg (by omega)]
  rw [Increment, hE, hf]
  simp only [hexp, Bool.false_eq_true, if_false]
  rw [increment]
  cases hv : el.value with
  | VInt n =>
    rw [hv] at hval
    simp [isIntValue] at hval
  | VStr s => rfl
  | VOther g => rfl

theorem Increment_inv {m : TtlMap} (now : Int) (k : String) (d t : Int)
    (hInv : m.Inv) : (Increment m now k d t).2.Inv := by
  by_cases ht : t ≤ 0
  · rw [Increment_nonpos ht]
    exact hInv
  · push_neg at ht
    cases hf : findElement m.elements k with
    | none =>
      rw [Increment_absent ht hf]
      exact Set_inv now k (.VInt d) t hInv
    | some el =>
      cases hexp : shouldExpire m now el with
      | true =>
        rw [Increment_expired ht hf hexp]
        exact Set_inv now k (.VInt d) t hInv
      | false =>
        cases hv : el.value with
        | VInt cur =>
          rw [Increment_live ht hf hexp hv]
          constructor
          · dsimp only
            rw [map_key_setValue]
            exact hInv.1
          · dsimp only
            rw [map_key_setValue, map_key_updateEl]
            exact hInv.2
        | VStr s =>
          rw [Increment_mismatch ht hf hexp (by rw [hv]; rfl)]
          exact hInv
        | VOther g =>
          rw [Increment_mismatch ht hf hexp (by rw [hv]; rfl)]
          exact hInv

theorem Increment_log (m : TtlMap) (now : Int) (k : String) (d t : Int) :
    (Increment m now k d t).2.expireLog = m.expireLog := by
  by_cases ht : t ≤ 0
  · rw [Increment_nonpos ht]
  · push_neg at ht
    cases hf : findElement m.elements k with
    | none =>
      rw [Increment_absent ht hf]
      exact (Set_frame m now k (.VInt d) t).2
    | some el =>
      cases hexp : shouldExpire m now el with
      | true =>
        rw [Increment_expired ht hf hexp]
        exact (Set_frame m now k (.VInt d) t).2
      | false =>
        cases hv : el.value with
        | VInt cur => rw [Increment_live ht hf hexp hv]
        | VStr s => rw [Increment_mismatch ht hf hexp (by rw [hv]; rfl)]
        | VOther g => rw [Increment_mismatch ht hf hexp (by rw [hv]; rfl)]

theorem GetInt_state (m : TtlMap) (now : Int) (k : String) :
    (GetInt m now k).2 = (Get m now k).state := by
  rw [GetInt]
  by_cases hfound : (Get m now k).found = true
  · rw [if_pos hfound]
    cases hv : (Get m now k).value with
    | none => rfl
    | some v => cases v <;> rfl
  · rw [if_neg hfound]

/-! ### Claim theorems -/

/-- C1, counterexample: with capacity 1, after `Set "a"` with TTL 1 at time 0,
a `Set "b"` at time 2 removes the expired entry "a" in phase 1 of
`freeSpace` (the removal count of `removeExpired` is 1), yet the expiry
callback log stays empty — contradicting the claim that every phase-1
expired removal fires the callback with the entry's key and value. -/
theorem claim_c1_counterexample :
    (removeExpired 2 1 (Set ⟨1, [], [], []⟩ 0 "a" (.VInt 1) 1).2).2 = 1 ∧
    findElement (Set (Set ⟨1, [], [], []⟩ 0 "a" (.VInt 1) 1).2
      2 "b" (.VInt 2) 1).2.elements "a" = none ∧
    (Set (Set ⟨1, [], [], []⟩ 0 "a" (.VInt 1) 1).2 2 "b" (.VInt 2) 1).2.expireLog
      = [] := by
  decide

/-- C1, amended: the expiry callback, when registered, fires exactly on
removals caused by lazily-discovered expiry during `Get` (and hence during
`GetInt`), with that entry's key and value; it never fires during `Set` or
`Increment` — in particular not in either phase of `freeSpace`, not on a
phase-1 expired removal, and not on a plain overwrite. -/
theorem claim_c1_amended (m : TtlMap) (now : Int) (n : Nat) (k : String)
    (v : Value) (d t : Int) :
    (Set m now k v t).2.expireLog = m.expireLog ∧
    (Increment m now k d t).2.expireLog = m.expireLog ∧
    (freeSpace now n m).expireLog = m.expireLog ∧
    (GetInt m now k).2.expireLog = (Get m now k).state.expireLog ∧
    (Get m now k).state.expireLog = m.expireLog ++
      (match findElement m.elements k with
       | some el => if shouldExpire m now el then [(k, el.value)] else []
       | none => []) :=
  ⟨(Set_frame m now k v t).2, Increment_log m now k d t,
   (freeSpace_shape now n m).2.1, by rw [GetInt_state], Get_log m now k⟩

/-- C2: from a freshly constructed container of capacity `c > 0`, after every
sequence of completed `Set` calls the number of stored entries is at most
`c`; and a `Set` that inserts a new key while the container holds at least
`capacity` entries first frees one slot via `freeSpace 1` and then appends
the new entry. -/
theorem claim_c2 :
    (∀ c : Int, 0 < c → ∀ calls : List (Int × String × Value × Int),
      ((runSets ⟨c, [], [], []⟩ calls).elements.length : Int) ≤ c) ∧
    (∀ (m : TtlMap) (now : Int) (k : String) (v : Value) (t : Int),
      findElement m.elements k = none → (m.elements.length : Int) ≥ m.capacity →
      0 < t →
      (Set m now k v t).2.elements = (freeSpace now 1 m).elements ++ [⟨k, v⟩]) := by
  constructor
  · intro c hc calls
    exact (runSets_bound calls ⟨c, [], [], []⟩ ⟨by simp, by simp⟩ hc
      (by simpa using le_of_lt hc)).2.2
  · intro m now k v t hf hge ht
    rw [Set_new_ge ht hf hge]

theorem claim_c2_witness :
    0 < (2 : Int) ∧
    ((runSets ⟨2, [], [], []⟩
        [(0, "a", .VInt 1, 10), (0, "b", .VInt 2, 5), (0, "c", .VInt 3, 10)]
      ).elements.length : Int) ≤ 2 :=
  ⟨by decide, claim_c2.1 2 (by decide) _⟩

/-- C3: if `Set k v t` succeeds at clock time `now` on a well-formed
container, producing state `m'`, then as long as `m'` is not further
mutated, `Get m' q k` reports `(v, true)` for every clock reading
`q < now + t` and `(none, false)` for every `q ≥ now + t`. -/
theorem claim_c3 {m : TtlMap} {now : Int} {k : String} {v : Value} {t : Int}
    {m' : TtlMap} (hInv : m.Inv) (ht : 0 < t)
    (hset : Set m now k v t = (.ok (), m')) :
    (∀ q : Int, q < now + t →
      (Get m' q k).value = some v ∧ (Get m' q k).found = true) ∧
    (∀ q : Int, now + t ≤ q →
      (Get m' q k).value = none ∧ (Get m' q k).found = false) := by
  obtain ⟨hok, hfind, hprio⟩ := @Set_find_self m now k v t hInv ht
  have hm' : m' = (Set m now k v t).2 := by rw [hset]
  subst hm'
  constructor
  · intro q hq
    have hexp : shouldExpire (Set m now k v t).2 q ⟨k, v⟩ = false := by
      rw [shouldExpire]
      dsimp only
      rw [hprio]
      simp
      omega
    rw [Get_live hfind hexp]
    exact ⟨rfl, rfl⟩
  · intro q hq
    have hexp : shouldExpire (Set m now k v t).2 q ⟨k, v⟩ = true := by
      rw [shouldExpire]
      dsimp only
      rw [hprio]
      simpa using hq
    rw [Get_expired hfind hexp]
    exact ⟨rfl, rfl⟩

theorem claim_c3_witness :
    Inv ⟨1, [], [], []⟩ ∧ 0 < (10 : Int) ∧
    Set ⟨1, [], [], []⟩ 0 "x" (.VInt 5) 10
      = (.ok (), ⟨1, [⟨"x", .VInt 5⟩], [⟨10, "x"⟩], []⟩) ∧
    ((∀ q : Int, q < 0 + 10 →
      (Get ⟨1, [⟨"x", .VInt 5⟩], [⟨10, "x"⟩], []⟩ q "x").value = some (.VInt 5) ∧
      (Get ⟨1, [⟨"x", .VInt 5⟩], [⟨10, "x"⟩], []⟩ q "x").found = true) ∧
    (∀ q : Int, 0 + 10 ≤ q →
      (Get ⟨1, [⟨"x", .VInt 5⟩], [⟨10, "x"⟩], []⟩ q "x").value = none ∧
      (Get ⟨1, [⟨"x", .VInt 5⟩], [⟨10, "x"⟩], []⟩ q "x").found = false)) :=
  ⟨by decide, by decide, rfl,
   @claim_c3 ⟨1, [], [], []⟩ 0 "x" (.VInt 5) 10
     ⟨1, [⟨"x", .VInt 5⟩], [⟨10, "x"⟩], []⟩ (by decide) (by decide) rfl⟩

/-- C4: on a well-formed container holding at least `n` entries,
`freeSpace n` frees exactly `n` slots (phase 1 removes expired minima,
phase 2 removes further minima regardless of expiry); consequently, with
capacity 2 and keys "a" (expiry 10), "b" (expiry 5), "c" (expiry 10) all
set at time 0, inserting "c" evicts the earliest-expiring key "b" while
"a" survives and the count stays 2. -/
theorem claim_c4 :
    (∀ (m : TtlMap) (now : Int) (n : Nat), m.Inv → n ≤ m.elements.length →
      Len (freeSpace now n m) + n = Len m) ∧
    ((Get (runSets ⟨2, [], [], []⟩
        [(0, "a", .VInt 1, 10), (0, "b", .VInt 2, 5), (0, "c", .VInt 3, 10)])
        0 "b").found = false ∧
     (Get (runSets ⟨2, [], [], []⟩
        [(0, "a", .VInt 1, 10), (0, "b", .VInt 2, 5), (0, "c", .VInt 3, 10)])
        0 "a").value = some (.VInt 1) ∧
     Len (runSets ⟨2, [], [], []⟩
        [(0, "a", .VInt 1, 10), (0, "b", .VInt 2, 5), (0, "c", .VInt 3, 10)]) = 2) := by
  constructor
  · intro m now n hInv hn
    have h := (freeSpace_invLen now n m hInv).2
    simp only [Len]
    omega
  · exact ⟨by decide, by decide, by decide⟩

theorem claim_c4_witness :
    Inv ⟨1, [⟨"a", .VInt 1⟩], [⟨5, "a"⟩], []⟩ ∧
    1 ≤ (⟨1, [⟨"a", .VInt 1⟩], [⟨5, "a"⟩], []⟩ : TtlMap).elements.length ∧
    Len (freeSpace 9 1 ⟨1, [⟨"a", .VInt 1⟩], [⟨5, "a"⟩], []⟩) + 1
      = Len ⟨1, [⟨"a", .VInt 1⟩], [⟨5, "a"⟩], []⟩ :=
  ⟨by decide, by decide, claim_c4.1 ⟨1, [⟨"a", .VInt 1⟩], [⟨5, "a"⟩], []⟩ 9 1
    (by decide) (by decide)⟩

/-- C5: when key `k` holds a present, non-expired, non-integer value, both
`Increment` (with a valid TTL) and `GetInt` fail with the type-mismatch
error and return the container unchanged. -/
theorem claim_c5 {m : TtlMap} {now : Int} {k : String} {d t : Int}
    {el : MapElement} (hf : findElement m.elements k = some el)
    (hexp : shouldExpire m now el = false)
    (hval : isIntValue el.value = false) (ht : 0 < t) :
    Increment m now k d t = (.error .typeMismatch, m) ∧
    GetInt m now k = (.error .typeMismatch, m) := by
  refine ⟨Increment_mismatch ht hf hexp hval, ?_⟩
  rw [GetInt, Get_live hf hexp]
  rw [if_pos rfl]
  cases hv : el.value with
  | VInt n =>
    rw [hv] at hval
    simp [isIntValue] at hval
  | VStr s => rfl
  | VOther g => rfl

theorem claim_c5_witness :
    findElement ([⟨"s", .VStr "x"⟩] : List MapElement) "s" = some ⟨"s", .VStr "x"⟩ ∧
    shouldExpire ⟨1, [⟨"s", .VStr "x"⟩], [⟨100, "s"⟩], []⟩ 0 ⟨"s", .VStr "x"⟩ = false ∧
    isIntValue (.VStr "x") = false ∧ 0 < (7 : Int) ∧
    (Increment ⟨1, [⟨"s", .VStr "x"⟩], [⟨100, "s"⟩], []⟩ 0 "s" 1 7
      = (.error .typeMismatch, ⟨1, [⟨"s", .VStr "x"⟩], [⟨100, "s"⟩], []⟩) ∧
    GetInt ⟨1, [⟨"s", .VStr "x"⟩], [⟨100, "s"⟩], []⟩ 0 "s"
      = (.error .typeMismatch, ⟨1, [⟨"s", .VStr "x"⟩], [⟨100, "s"⟩], []⟩)) :=
  ⟨by decide, by decide, by decide, by decide,
   @claim_c5 ⟨1, [⟨"s", .VStr "x"⟩], [⟨100, "s"⟩], []⟩ 0 "s" 1 7 ⟨"s", .VStr "x"⟩
     (by decide) (by decide) (by decide) (by decide)⟩

/-- C6: with a valid TTL, `Increment k d t` behaves as `Set k (int d) t` and
returns `d` when `k` is absent (part 1) or expired (part 2); when `k` holds a
non-expired integer `cur` it returns `cur + d`, stores `cur + d`, and
refreshes the expiry to `now + t` (part 3); hence two successive Increments
with deltas `a` and `b` on a fresh key leave stored value `a + b` (part 4). -/
theorem claim_c6 :
    (∀ (m : TtlMap) (now : Int) (k : String) (d t : Int),
      0 < t → findElement m.elements k = none →
      Increment m now k d t = (.ok d, (Set m now k (.VInt d) t).2)) ∧
    (∀ (m : TtlMap) (now : Int) (k : String) (d t : Int) (el : MapElement),
      0 < t → findElement m.elements k = some el →
      shouldExpire m now el = true →
      Increment m now k d t = (.ok d, (Set m now k (.VInt d) t).2)) ∧
    (∀ (m : TtlMap) (now : Int) (k : String) (d t cur : Int) (el : MapElement),
      m.Inv → 0 < t → findElement m.elements k = some el →
      shouldExpire m now el = false → el.value = .VInt cur →
      (Increment m now k d t).1 = .ok (cur + d) ∧
      findElement (Increment m now k d t).2.elements k
        = some ⟨k, .VInt (cur + d)⟩ ∧
      heapPriority (Increment m now k d t).2 k = now + t) ∧
    (∀ (m : TtlMap) (now now' : Int) (k : String) (a b t t' : Int),
      m.Inv → 0 < t → 0 < t' → findElement m.elements k = none →
      now' < now + t →
      findElement (Increment (Increment m now k a t).2 now' k b t').2.elements k
        = some ⟨k, .VInt (a + b)⟩) := by
  refine ⟨?_, ?_, ?_, ?_⟩
  · intro m now k d t ht hf
    exact Increment_absent ht hf
  · intro m now k d t el ht hf hexp
    exact Increment_expired ht hf hexp
  · intro m now k d t cur el hInv ht hf hexp hval
    have hkey := findElement_key hf
    have hstate : (Increment m now k d t).2 = (Set m now k (.VInt (cur + d)) t).2 := by
      rw [Increment_live ht hf hexp hval, Set_overwrite ht hf, hkey]
    obtain ⟨hok2, hfind2, hprio2⟩ :=
      Set_find_self (v := .VInt (cur + d)) (t := t) (k := k) hInv ht
    refine ⟨?_, ?_, ?_⟩
    · rw [Increment_live ht hf hexp hval]
    · rw [hstate]
      exact hfind2
    · rw [hstate]
      exact hprio2
  · intro m now now' k a b t t' hInv ht ht' hf hlt
    obtain ⟨hok, hfind, hprio⟩ :=
      Set_find_self (v := .VInt a) (t := t) (k := k) hInv ht
    rw [Increment_absent ht hf]
    dsimp only
    have hexp2 : shouldExpire (Set m now k (.VInt a) t).2 now' ⟨k, .VInt a⟩
        = false := by
      rw [shouldExpire]
      dsimp only
      rw [hprio]
      simp
      omega
    rw [Increment_live ht' hfind hexp2 rfl]
    dsimp only
    rw [findElement_setValue_self, hfind]
    rfl

theorem claim_c6_witness :
    Inv ⟨2, [], [], []⟩ ∧ 0 < (10 : Int) ∧ 0 < (10 : Int) ∧
    findElement ([] : List MapElement) "k" = none ∧ (1 : Int) < 0 + 10 ∧
    findElement (Increment (Increment ⟨2, [], [], []⟩ 0 "k" 3 10).2
      1 "k" 4 10).2.elements "k" = some ⟨"k", .VInt 7⟩ :=
  ⟨by decide, by decide, by decide, by decide, by decide,
   claim_c6.2.2.2 ⟨2, [], [], []⟩ 0 1 "k" 3 4 10 10
     (by decide) (by decide) (by decide) (by decide) (by decide)⟩

/-- C7: for every non-positive TTL, `Set` and `Increment` fail with the
invalid-TTL error and return the container unchanged (no entry created,
removed or modified, and no eviction performed). -/
theorem claim_c7 {m : TtlMap} {now : Int} {k : String} {v : Value} {d t : Int}
    (ht : t ≤ 0) :
    Set m now k v t = (.error .invalidTTL, m) ∧
    Increment m now k d t = (.error .invalidTTL, m) :=
  ⟨Set_nonpos ht, Increment_nonpos ht⟩

theorem claim_c7_witness :
    (0 : Int) ≤ 0 ∧
    (Set ⟨1, [], [], []⟩ 5 "a" (.VInt 1) 0 = (.error .invalidTTL, ⟨1, [], [], []⟩) ∧
    Increment ⟨1, [], [], []⟩ 5 "a" 2 0 = (.error .invalidTTL, ⟨1, [], [], []⟩)) :=
  ⟨by decide, @claim_c7 ⟨1, [], [], []⟩ 5 "a" (.VInt 1) 2 0 (by decide)⟩

/-- C8: every public operation preserves the joint invariant that the entry
map and the priority heap are in bijection (each stored key has exactly one
heap handle and vice versa, `Inv`); `Len` reads the state without mutating
it, so it preserves the invariant trivially.  A handle's priority equals its
entry's expiry by representation (the Go entry stores no separate expiry;
`heapEl.Priority` is the single storage location), and it is refreshed
atomically with the entry by a successful `Set`. -/
theorem claim_c8 {m : TtlMap} (now : Int) (k : String) (v : Value) (d t : Int)
    (hInv : m.Inv) :
    (Set m now k v t).2.Inv ∧
    (Get m now k).state.Inv ∧
    (Increment m now k d t).2.Inv ∧
    (GetInt m now k).2.Inv ∧
    (0 < t → heapPriority (Set m now k v t).2 k = now + t) :=
  ⟨Set_inv now k v t hInv, Get_inv now k hInv, Increment_inv now k d t hInv,
   by rw [GetInt_state]; exact Get_inv now k hInv,
   fun ht => (Set_find_self hInv ht).2.2⟩

theorem claim_c8_witness :
    Inv ⟨2, [⟨"a", .VInt 1⟩], [⟨10, "a"⟩], []⟩ ∧
    ((Set ⟨2, [⟨"a", .VInt 1⟩], [⟨10, "a"⟩], []⟩ 0 "a" (.VStr "s") 5).2.Inv ∧
    (Get ⟨2, [⟨"a", .VInt 1⟩], [⟨10, "a"⟩], []⟩ 0 "a").state.Inv ∧
    (Increment ⟨2, [⟨"a", .VInt 1⟩], [⟨10, "a"⟩], []⟩ 0 "a" 3 5).2.Inv ∧
    (GetInt ⟨2, [⟨"a", .VInt 1⟩], [⟨10, "a"⟩], []⟩ 0 "a").2.Inv ∧
    (0 < (5 : Int) →
      heapPriority (Set ⟨2, [⟨"a", .VInt 1⟩], [⟨10, "a"⟩], []⟩ 0 "a"
        (.VStr "s") 5).2 "a" = 0 + 5)) :=
  ⟨by decide,
   @claim_c8 ⟨2, [⟨"a", .VInt 1⟩], [⟨10, "a"⟩], []⟩ 0 "a" (.VStr "s") 3 5
     (by decide)⟩

/-- C9: a successful `Set` on an already-present key updates the value and
refreshes the heap priority in place: the result is ok, `Len` is unchanged,
the key maps to the new value with expiry `now + t`, and every other key's
entry and heap priority are untouched (no entry added or removed, no
eviction). -/
theorem claim_c9 {m : TtlMap} {now : Int} {k : String} {v : Value} {t : Int}
    {el : MapElement} (hInv : m.Inv) (ht : 0 < t)
    (hf : findElement m.elements k = some el) :
    (Set m now k v t).1 = .ok () ∧
    Len (Set m now k v t).2 = Len m ∧
    findElement (Set m now k v t).2.elements k = some ⟨k, v⟩ ∧
    heapPriority (Set m now k v t).2 k = now + t ∧
    (∀ k' : String, k' ≠ k →
      findElement (Set m now k v t).2.elements k' = findElement m.elements k' ∧
      heapPriority (Set m now k v t).2 k' = heapPriority m k') := by
  obtain ⟨hok, hfind, hprio⟩ := Set_find_self (v := v) (t := t) (k := k) hInv ht
  refine ⟨hok, ?_, hfind, hprio, ?_⟩
  · rw [Set_overwrite ht hf, Len, Len]
    dsimp only
    rw [setValue, List.length_map]
  · intro q hne
    rw [Set_overwrite ht hf]
    constructor
    · dsimp only
      exact findElement_setValue_other hne v m.elements
    · simp only [heapPriority]
      rw [find?_updateEl_other hne]

theorem claim_c9_witness :
    Inv ⟨2, [⟨"a", .VInt 1⟩, ⟨"b", .VInt 2⟩], [⟨10, "a"⟩, ⟨20, "b"⟩], []⟩ ∧
    0 < (5 : Int) ∧
    findElement ([⟨"a", .VInt 1⟩, ⟨"b", .VInt 2⟩] : List MapElement) "a"
      = some ⟨"a", .VInt 1⟩ ∧
    (Set ⟨2, [⟨"a", .VInt 1⟩, ⟨"b", .VInt 2⟩], [⟨10, "a"⟩, ⟨20, "b"⟩], []⟩
        3 "a" (.VInt 9) 5).1 = .ok () ∧
    Len (Set ⟨2, [⟨"a", .VInt 1⟩, ⟨"b", .VInt 2⟩], [⟨10, "a"⟩, ⟨20, "b"⟩], []⟩
        3 "a" (.VInt 9) 5).2
      = Len ⟨2, [⟨"a", .VInt 1⟩, ⟨"b", .VInt 2⟩], [⟨10, "a"⟩, ⟨20, "b"⟩], []⟩ :=
  ⟨by decide, by decide, by decide,
   (@claim_c9 ⟨2, [⟨"a", .VInt 1⟩, ⟨"b", .VInt 2⟩], [⟨10, "a"⟩, ⟨20, "b"⟩], []⟩
     3 "a" (.VInt 9) 5 ⟨"a", .VInt 1⟩ (by decide) (by decide) (by decide)).1,
   (@claim_c9 ⟨2, [⟨"a", .VInt 1⟩, ⟨"b", .VInt 2⟩], [⟨10, "a"⟩, ⟨20, "b"⟩], []⟩
     3 "a" (.VInt 9) 5 ⟨"a", .VInt 1⟩ (by decide) (by decide) (by decide)).2.1⟩

/-- C10: `Len` does not evaluate expiry: an entry that is present but
expired at the current clock still counts toward `Len` (the count is at
least one), and only after `Get` on that key reports not-found — physically
removing the entry — does `Len` drop, by exactly one. -/
theorem claim_c10 {m : TtlMap} {now : Int} {k : String} {el : MapElement}
    (hf : findElement m.elements k = some el)
    (hexp : shouldExpire m now el = true) :
    1 ≤ Len m ∧ (Get m now k).found = false ∧
    Len (Get m now k).state + 1 = Len m := by
  have hkey := findElement_key hf
  have hmem : k ∈ m.elements.map MapElement.key :=
    List.mem_map.mpr ⟨el, findElement_mem hf, hkey⟩
  have hlen : (eraseElement el.key m.elements).length + 1 = m.elements.length :=
    length_eraseElement_of_mem (by rw [hkey]; exact hmem)
  refine ⟨?_, ?_, ?_⟩
  · rw [Len]
    rcases List.mem_map.mp hmem with ⟨a, ha, _⟩
    exact List.length_pos_of_mem ha
  · rw [Get_expired hf hexp]
  · rw [Get_expired hf hexp, Len, Len]
    exact hlen

theorem claim_c10_witness :
    findElement ([⟨"x", .VInt 1⟩] : List MapElement) "x" = some ⟨"x", .VInt 1⟩ ∧
    shouldExpire ⟨1, [⟨"x", .VInt 1⟩], [⟨1, "x"⟩], []⟩ 2 ⟨"x", .VInt 1⟩ = true ∧
    (1 ≤ Len ⟨1, [⟨"x", .VInt 1⟩], [⟨1, "x"⟩], []⟩ ∧
    (Get ⟨1, [⟨"x", .VInt 1⟩], [⟨1, "x"⟩], []⟩ 2 "x").found = false ∧
    Len (Get ⟨1, [⟨"x", .VInt 1⟩], [⟨1, "x"⟩], []⟩ 2 "x").state + 1
      = Len ⟨1, [⟨"x", .VInt 1⟩], [⟨1, "x"⟩], []⟩) :=
  ⟨by decide, by decide,
   @claim_c10 ⟨1, [⟨"x", .VInt 1⟩], [⟨1, "x"⟩], []⟩ 2 "x" ⟨"x", .VInt 1⟩
     (by decide) (by decide)⟩

end TtlMap
